import Mathlib

/-!
# Deterministic event queue

A shallow embedding of `util/deterministic-queue.c`, `util/deterministic.c` and
`include/qemu/deterministic.h`.

* `uint64_t` values are natural numbers; the queue only compares and stores
  them, so no arithmetic can wrap.  Where the width matters a bound by
  `UINT64_MAX` is stated explicitly.
* A function pointer `void (*)(void *)` and a `void *` argument are the
  numbers of their addresses.
* The `QTAILQ` of heap nodes is the list of its nodes, head first.
* The file-scope variables `event_queue`, `queue_initialized`,
  `current_icount` and the global `deterministic_cfg` are the fields of
  `QueueState`; every C function is a function on that state.
* Calling a callback is observable only through the field `trace`, the log of
  calls made so far, oldest first.  In the functions of the first part the
  callback does not call back into the queue; the second part
  (`deterministic_queue_run_reentrant`) lets a callback call
  `deterministic_queue_push`.
* `queue_lock` is not modelled: the embedding is sequential.
-/

namespace DeterministicQueue

/-! ## Data model -/

/-- Largest value of a `uint64_t`. -/
def UINT64_MAX : Nat := 2 ^ 64 - 1

/-- `struct DeterministicConfig` of `include/qemu/deterministic.h`. -/
structure DeterministicConfig where
  enabled : Bool
  random_seed : Nat
  start_time_ns : Nat
  instr_slice : Nat
  force_icount : Bool
  disable_mttcg : Bool
deriving DecidableEq

/-- The initializer of the global `deterministic_cfg` in `util/deterministic.c`. -/
def deterministic_cfg : DeterministicConfig where
  enabled := false
  random_seed := 0
  start_time_ns := 0
  instr_slice := 10000
  force_icount := false
  disable_mttcg := false

/-- `deterministic_init_config`: fill in the default slice when it is zero. -/
def deterministic_init_config (cfg : DeterministicConfig) : DeterministicConfig :=
  if cfg.instr_slice = 0 then { cfg with instr_slice := 10000 } else cfg

/-- `struct DeterministicEvent` without its list link: the due instruction
count, the callback's address and the argument handed to it.  The same record
is used for an entry of the call log: the call `callback(opaque_)`, tagged
with the due-count it was scheduled with. -/
structure DeterministicEvent where
  when_instrs : Nat
  callback : Nat
  opaque_ : Nat
deriving DecidableEq

/-- The state the queue's functions read and write. -/
structure QueueState where
  cfg : DeterministicConfig
  event_queue : List DeterministicEvent
  queue_initialized : Bool
  current_icount : Nat
  trace : List DeterministicEvent
deriving DecidableEq

/-- The state at program start: the static initializers of the C files, and no
callback called yet. -/
def initial_state : QueueState where
  cfg := deterministic_cfg
  event_queue := []
  queue_initialized := false
  current_icount := 0
  trace := []

/-! ## Operations -/

/-- `deterministic_enabled` of the header: a read of the flag. -/
def deterministic_enabled (s : QueueState) : Bool := s.cfg.enabled

/-- `deterministic_queue_init`. -/
def deterministic_queue_init (s : QueueState) : QueueState :=
  if !s.queue_initialized then { s with queue_initialized := true } else s

/-- The `QTAILQ_FOREACH` of `deterministic_queue_push`, started at the node that
heads the argument list: link `event` after the first node `e` whose successor
is missing or is due no earlier than `event`. -/
def insert_after_scan (event : DeterministicEvent) :
    List DeterministicEvent → List DeterministicEvent
  | [] => []
  | [e] => [e, event]
  | e :: nxt :: rest =>
    if event.when_instrs ≤ nxt.when_instrs then e :: event :: nxt :: rest
    else e :: insert_after_scan event (nxt :: rest)

/-- The critical section of `deterministic_queue_push`: head insertion when
the queue is empty or the head is due no earlier than `event`, else the scan. -/
def queue_insert (event : DeterministicEvent) (q : List DeterministicEvent) :
    List DeterministicEvent :=
  match q with
  | [] => [event]
  | first :: _ =>
    if event.when_instrs ≤ first.when_instrs then event :: q
    else insert_after_scan event q

/-- `deterministic_queue_push`. -/
def deterministic_queue_push (s : QueueState) (when_instrs cb opaque_ : Nat) :
    QueueState :=
  if !deterministic_enabled s then
    { s with trace := s.trace ++ [⟨when_instrs, cb, opaque_⟩] }
  else
    let s1 := if !s.queue_initialized then deterministic_queue_init s else s
    let event : DeterministicEvent := ⟨when_instrs, cb, opaque_⟩
    { s1 with event_queue := queue_insert event s1.event_queue }

/-- The `QTAILQ_FOREACH_SAFE` of `deterministic_queue_run` for callbacks that
leave the queue alone.  The first argument after `icount` is the queue from the
loop variable on, the second the call log; the result is the queue left and
the log. -/
def run_foreach_safe (icount : Nat) :
    List DeterministicEvent → List DeterministicEvent →
      List DeterministicEvent × List DeterministicEvent
  | [], tr => ([], tr)
  | event :: nxt, tr =>
    if event.when_instrs > icount then (event :: nxt, tr)
    else run_foreach_safe icount nxt (tr ++ [event])

/-- `deterministic_queue_run`. -/
def deterministic_queue_run (s : QueueState) (icount : Nat) : QueueState :=
  if !deterministic_enabled s || !s.queue_initialized then s
  else
    let r := run_foreach_safe icount s.event_queue s.trace
    { s with current_icount := icount, event_queue := r.1, trace := r.2 }

/-- `deterministic_queue_get_current_icount`. -/
def deterministic_queue_get_current_icount (s : QueueState) : Nat :=
  s.current_icount

/-- The `QTAILQ_FOREACH_SAFE` of `deterministic_queue_cleanup`: unlink and free
every node. -/
def cleanup_foreach_safe : List DeterministicEvent → List DeterministicEvent
  | [] => []
  | _ :: nxt => cleanup_foreach_safe nxt

/-- `deterministic_queue_cleanup`. -/
def deterministic_queue_cleanup (s : QueueState) : QueueState :=
  if !s.queue_initialized then s
  else { s with event_queue := cleanup_foreach_safe s.event_queue,
                queue_initialized := false }

/-! ## Sequences of calls -/

/-- One call made by the host. -/
inductive Op where
  | init
  | push (when_instrs cb opaque_ : Nat)
  | run (icount : Nat)
  | cleanup
  | set_enabled (b : Bool)
  | init_config
deriving DecidableEq

/-- The effect of one call. -/
def step (s : QueueState) : Op → QueueState
  | .init => deterministic_queue_init s
  | .push w cb o => deterministic_queue_push s w cb o
  | .run n => deterministic_queue_run s n
  | .cleanup => deterministic_queue_cleanup s
  | .set_enabled b => { s with cfg := { s.cfg with enabled := b } }
  | .init_config => { s with cfg := deterministic_init_config s.cfg }

/-- The state after a sequence of calls, first call first. -/
def exec (s : QueueState) (ops : List Op) : QueueState := ops.foldl step s

/-- Whether a call is a call of `deterministic_queue_run`. -/
def is_run : Op → Bool
  | .run _ => true
  | _ => false

/-- The events are in non-decreasing `when_instrs` order from head to tail. -/
def queue_sorted (q : List DeterministicEvent) : Prop :=
  q.Pairwise (fun a b => a.when_instrs ≤ b.when_instrs)

instance queue_sorted_decidable (q : List DeterministicEvent) : Decidable (queue_sorted q) := by
  unfold queue_sorted; infer_instance

/-- A push request `(when_instrs, cb, opaque_)` as the event node it allocates. -/
def to_event (p : Nat × Nat × Nat) : DeterministicEvent := ⟨p.1, p.2.1, p.2.2⟩

/-- Push every request of the list, first one first. -/
def push_all (s : QueueState) (ps : List (Nat × Nat × Nat)) : QueueState :=
  ps.foldl (fun t p => deterministic_queue_push t p.1 p.2.1 p.2.2) s

/-- The state after the host has switched deterministic mode on at program
start. -/
def enabled_state : QueueState := step initial_state (.set_enabled true)

/-! ## Callbacks that push

`deterministic_queue_run` unlocks the queue around `event->callback(event->opaque)`
so that the callback may call `deterministic_queue_push`.  The loop variable
`next` of `QTAILQ_FOREACH_SAFE` is read before the callback runs and points at
a node of the queue; this node is named here by its index from the head. -/

/-- What the callback at an address does when called with an argument, apart
from being logged: it may update the world outside the queue (of type `σ`) and
makes the listed calls `deterministic_queue_push (when_instrs, cb, opaque_)`,
in order. -/
abbrev Callbacks (σ : Type) := Nat → Nat → σ → σ × List (Nat × Nat × Nat)

/-- The scan of `insert_after_scan`, returning the number of nodes of the
argument list that end up in front of the new node. -/
def scan_index (event : DeterministicEvent) : List DeterministicEvent → Nat
  | [] => 0
  | [_] => 1
  | _ :: nxt :: rest =>
    if event.when_instrs ≤ nxt.when_instrs then 1
    else 1 + scan_index event (nxt :: rest)

/-- The number of nodes in front of the node that `queue_insert` links. -/
def insert_index (event : DeterministicEvent) (q : List DeterministicEvent) : Nat :=
  match q with
  | [] => 0
  | first :: _ =>
    if event.when_instrs ≤ first.when_instrs then 0 else scan_index event q

/-- One `deterministic_queue_push` made by a callback while the loop of
`deterministic_queue_run` holds a pointer to the node at index `st.2` (to no
node when `st.2` is the length of the queue): a node linked at or in front of
that index moves the pointed-to node one place back. -/
def callback_push (st : QueueState × Nat) (r : Nat × Nat × Nat) : QueueState × Nat :=
  (deterministic_queue_push st.1 r.1 r.2.1 r.2.2,
    if insert_index (to_event r) st.1.event_queue ≤ st.2 then st.2 + 1 else st.2)

/-- The `QTAILQ_FOREACH_SAFE` of `deterministic_queue_run` with callbacks that
push.  `pos` is the index of the loop variable `event` (no node when it is
past the tail); after `QTAILQ_REMOVE` the saved `next` is the node at the same
index.  The first argument counts the iterations allowed. -/
def run_foreach_safe_reentrant {σ : Type} (cbs : Callbacks σ) (icount : Nat) :
    Nat → QueueState → Nat → σ → Option (QueueState × σ)
  | 0, _, _, _ => none
  | fuel + 1, s, pos, x =>
    match s.event_queue[pos]? with
    | none => some (s, x)
    | some event =>
      if event.when_instrs > icount then some (s, x)
      else
        let s1 := { s with event_queue := s.event_queue.eraseIdx pos,
                           trace := s.trace ++ [event] }
        let r := cbs event.callback event.opaque_ x
        let st := r.2.foldl callback_push (s1, pos)
        run_foreach_safe_reentrant cbs icount fuel st.1 st.2 r.1

/-- `deterministic_queue_run` with callbacks that push. -/
def deterministic_queue_run_reentrant {σ : Type} (cbs : Callbacks σ) (fuel : Nat)
    (s : QueueState) (x : σ) (icount : Nat) : Option (QueueState × σ) :=
  if !deterministic_enabled s || !s.queue_initialized then some (s, x)
  else run_foreach_safe_reentrant cbs icount fuel { s with current_icount := icount } 0 x

/-- Callbacks for the examples: the callback at address 1 pushes one event due
at `w` whose callback is at address 2; every other callback pushes nothing.
The world outside the queue is trivial. -/
def pushes_one (w : Nat) : Callbacks Unit :=
  fun cb _ x => if cb = 1 then (x, [(w, 2, 0)]) else (x, [])

/-! ## Insertion -/

theorem insert_after_scan_cons (event e : DeterministicEvent) (q : List DeterministicEvent) :
    insert_after_scan event (e :: q) = e :: queue_insert event q := by
  cases q with
  | nil => rfl
  | cons nxt rest =>
    simp only [insert_after_scan, queue_insert]
    split <;> rfl

theorem queue_insert_cons (event e : DeterministicEvent) (q : List DeterministicEvent) :
    queue_insert event (e :: q) =
      if event.when_instrs ≤ e.when_instrs then event :: e :: q
      else e :: queue_insert event q := by
  simp only [queue_insert, insert_after_scan_cons]

theorem queue_insert_eq_take_drop (event : DeterministicEvent) (q : List DeterministicEvent) :
    queue_insert event q =
      q.takeWhile (fun e => decide (e.when_instrs < event.when_instrs)) ++
        event :: q.dropWhile (fun e => decide (e.when_instrs < event.when_instrs)) := by
  induction q with
  | nil => rfl
  | cons e q ih =>
    rw [queue_insert_cons]
    by_cases h : event.when_instrs ≤ e.when_instrs
    · have h2 : ¬ e.when_instrs < event.when_instrs := Nat.not_lt.mpr h
      simp [h, h2, List.takeWhile, List.dropWhile]
    · have h2 : e.when_instrs < event.when_instrs := Nat.lt_of_not_le h
      simp [h, h2, List.takeWhile, List.dropWhile, ih]

theorem queue_insert_perm (event : DeterministicEvent) (q : List DeterministicEvent) :
    (queue_insert event q).Perm (event :: q) := by
  rw [queue_insert_eq_take_drop]
  refine List.perm_middle.trans ?_
  rw [List.takeWhile_append_dropWhile]

theorem queue_insert_length (event : DeterministicEvent) (q : List DeterministicEvent) :
    (queue_insert event q).length = q.length + 1 := by
  simpa using (queue_insert_perm event q).length_eq

theorem queue_insert_sorted (event : DeterministicEvent) (q : List DeterministicEvent)
    (h : queue_sorted q) : queue_sorted (queue_insert event q) := by
  induction q with
  | nil => simp [queue_insert, queue_sorted]
  | cons e q ih =>
    rw [queue_insert_cons]
    unfold queue_sorted at h ih ⊢
    rw [List.pairwise_cons] at h
    by_cases hle : event.when_instrs ≤ e.when_instrs
    · rw [if_pos hle, List.pairwise_cons, List.pairwise_cons]
      refine ⟨?_, h⟩
      intro b hb
      rcases List.mem_cons.mp hb with rfl | hb
      · exact hle
      · exact Nat.le_trans hle (h.1 b hb)
    · rw [if_neg hle, List.pairwise_cons]
      refine ⟨?_, ih h.2⟩
      intro b hb
      rcases List.mem_cons.mp ((queue_insert_perm event q).mem_iff.mp hb) with rfl | hb
      · exact Nat.le_of_lt (Nat.lt_of_not_le hle)
      · exact h.1 b hb

/-! ## The dispatch loop -/

theorem run_foreach_safe_eq (icount : Nat) (q tr : List DeterministicEvent) :
    run_foreach_safe icount q tr =
      (q.dropWhile (fun e => decide (e.when_instrs ≤ icount)),
        tr ++ q.takeWhile (fun e => decide (e.when_instrs ≤ icount))) := by
  induction q generalizing tr with
  | nil => simp [run_foreach_safe]
  | cons e q ih =>
    by_cases h : e.when_instrs > icount
    · have h2 : ¬ e.when_instrs ≤ icount := Nat.not_le.mpr h
      simp [run_foreach_safe, h, h2, List.takeWhile, List.dropWhile]
    · have h2 : e.when_instrs ≤ icount := Nat.le_of_not_lt h
      simp [run_foreach_safe, h, h2, List.takeWhile, List.dropWhile, ih]

theorem sorted_takeWhile_eq_filter (icount : Nat) (q : List DeterministicEvent)
    (h : queue_sorted q) :
    q.takeWhile (fun e => decide (e.when_instrs ≤ icount)) =
      q.filter (fun e => decide (e.when_instrs ≤ icount)) := by
  induction q with
  | nil => rfl
  | cons e q ih =>
    unfold queue_sorted at h ih
    rw [List.pairwise_cons] at h
    by_cases hle : e.when_instrs ≤ icount
    · simp [List.takeWhile, List.filter, hle, ih h.2]
    · have : ∀ b ∈ q, ¬ b.when_instrs ≤ icount := fun b hb hb2 =>
        hle (Nat.le_trans (h.1 b hb) hb2)
      simp only [List.takeWhile, List.filter, hle, decide_False]
      symm
      rw [List.filter_eq_nil_iff]
      intro b hb
      simpa using this b hb

theorem sorted_dropWhile_eq_filter (icount : Nat) (q : List DeterministicEvent)
    (h : queue_sorted q) :
    q.dropWhile (fun e => decide (e.when_instrs ≤ icount)) =
      q.filter (fun e => decide (icount < e.when_instrs)) := by
  induction q with
  | nil => rfl
  | cons e q ih =>
    unfold queue_sorted at h ih
    rw [List.pairwise_cons] at h
    by_cases hle : e.when_instrs ≤ icount
    · have h2 : ¬ icount < e.when_instrs := Nat.not_lt.mpr hle
      simp [List.dropWhile, List.filter, hle, h2, ih h.2]
    · have h2 : icount < e.when_instrs := Nat.lt_of_not_le hle
      have : ∀ b ∈ q, icount < b.when_instrs := fun b hb =>
        Nat.lt_of_lt_of_le h2 (h.1 b hb)
      simp only [List.dropWhile, List.filter, hle, h2, decide_False, decide_True]
      congr 1
      symm
      rw [List.filter_eq_self]
      intro b hb
      simpa using this b hb


/-! ## The operations on the state -/

theorem push_enabled (s : QueueState) (w cb o : Nat) (h : deterministic_enabled s = true) :
    deterministic_queue_push s w cb o =
      { s with queue_initialized := true,
               event_queue := queue_insert ⟨w, cb, o⟩ s.event_queue } := by
  unfold deterministic_queue_push deterministic_queue_init
  cases hi : s.queue_initialized <;> simp [h, hi]

theorem push_disabled (s : QueueState) (w cb o : Nat) (h : deterministic_enabled s = false) :
    deterministic_queue_push s w cb o = { s with trace := s.trace ++ [⟨w, cb, o⟩] } := by
  simp [deterministic_queue_push, h]

theorem push_cfg (s : QueueState) (w cb o : Nat) :
    (deterministic_queue_push s w cb o).cfg = s.cfg := by
  cases h : deterministic_enabled s
  · rw [push_disabled s w cb o h]
  · rw [push_enabled s w cb o h]

theorem run_active (s : QueueState) (n : Nat) (h : deterministic_enabled s = true)
    (hi : s.queue_initialized = true) :
    deterministic_queue_run s n =
      { s with current_icount := n,
               event_queue := s.event_queue.dropWhile (fun e => decide (e.when_instrs ≤ n)),
               trace := s.trace ++ s.event_queue.takeWhile (fun e => decide (e.when_instrs ≤ n)) } := by
  simp [deterministic_queue_run, h, hi, run_foreach_safe_eq]

theorem run_inactive (s : QueueState) (n : Nat)
    (h : deterministic_enabled s = false ∨ s.queue_initialized = false) :
    deterministic_queue_run s n = s := by
  rcases h with h | h <;> simp [deterministic_queue_run, h]

theorem cleanup_foreach_safe_eq (q : List DeterministicEvent) : cleanup_foreach_safe q = [] := by
  induction q with
  | nil => rfl
  | cons e q ih => simpa [cleanup_foreach_safe] using ih

theorem sorted_dropWhile (p : DeterministicEvent → Bool) (q : List DeterministicEvent)
    (h : queue_sorted q) : queue_sorted (q.dropWhile p) :=
  List.Pairwise.sublist (List.dropWhile_sublist p) h

theorem push_sorted (s : QueueState) (w cb o : Nat) (h : queue_sorted s.event_queue) :
    queue_sorted (deterministic_queue_push s w cb o).event_queue := by
  cases he : deterministic_enabled s
  · rw [push_disabled s w cb o he]; exact h
  · rw [push_enabled s w cb o he]; exact queue_insert_sorted _ _ h

theorem run_sorted (s : QueueState) (n : Nat) (h : queue_sorted s.event_queue) :
    queue_sorted (deterministic_queue_run s n).event_queue := by
  by_cases ha : deterministic_enabled s = true ∧ s.queue_initialized = true
  · rw [run_active s n ha.1 ha.2]; exact sorted_dropWhile _ _ h
  · rw [run_inactive s n (by
      rcases Bool.eq_false_or_eq_true (deterministic_enabled s) with h1 | h1
      · rcases Bool.eq_false_or_eq_true s.queue_initialized with h2 | h2
        · exact absurd ⟨h1, h2⟩ ha
        · exact Or.inr h2
      · exact Or.inl h1)]
    exact h

theorem cleanup_sorted (s : QueueState) (h : queue_sorted s.event_queue) :
    queue_sorted (deterministic_queue_cleanup s).event_queue := by
  unfold deterministic_queue_cleanup
  split
  · exact h
  · simp [cleanup_foreach_safe_eq, queue_sorted]

theorem step_sorted (s : QueueState) (op : Op) (h : queue_sorted s.event_queue) :
    queue_sorted (step s op).event_queue := by
  cases op with
  | init =>
    show queue_sorted (deterministic_queue_init s).event_queue
    unfold deterministic_queue_init
    split <;> exact h
  | push w cb o => exact push_sorted s w cb o h
  | run n => exact run_sorted s n h
  | cleanup => exact cleanup_sorted s h
  | set_enabled b => exact h
  | init_config => exact h

theorem exec_sorted (ops : List Op) (s : QueueState) (h : queue_sorted s.event_queue) :
    queue_sorted (exec s ops).event_queue := by
  induction ops generalizing s with
  | nil => exact h
  | cons op ops ih => exact ih (step s op) (step_sorted s op h)

/-! ## Claims -/

/-- C1 (sort invariant).  From a queue in non-decreasing `when_instrs` order,
`deterministic_queue_push` in enabled mode, `deterministic_queue_run` (callbacks
leave the queue alone) and `deterministic_queue_cleanup` each yield a queue in
non-decreasing order again; so the queue is in non-decreasing order in every
state reached from the initial state by any sequence of calls. -/
theorem sort_invariant :
    (∀ (s : QueueState) (w cb o : Nat), deterministic_enabled s = true →
      queue_sorted s.event_queue →
      queue_sorted (deterministic_queue_push s w cb o).event_queue) ∧
    (∀ (s : QueueState) (n : Nat), queue_sorted s.event_queue →
      queue_sorted (deterministic_queue_run s n).event_queue) ∧
    (∀ s : QueueState, queue_sorted s.event_queue →
      queue_sorted (deterministic_queue_cleanup s).event_queue) ∧
    (∀ ops : List Op, queue_sorted (exec initial_state ops).event_queue) :=
  ⟨fun s w cb o _ h => push_sorted s w cb o h, run_sorted, cleanup_sorted,
    fun ops => exec_sorted ops initial_state (by simp [initial_state, queue_sorted])⟩

/-- C1, at concrete inputs: pushing 7 into the sorted queue 5, 10 of an enabled
state, running that state to 5, and a mixed sequence of calls from the initial
state. -/
theorem sort_invariant_witness :
    queue_sorted (deterministic_queue_push
      { enabled_state with queue_initialized := true,
                           event_queue := [⟨5, 1, 1⟩, ⟨10, 2, 2⟩] } 7 3 3).event_queue ∧
    queue_sorted (deterministic_queue_run
      { enabled_state with queue_initialized := true,
                           event_queue := [⟨5, 1, 1⟩, ⟨10, 2, 2⟩] } 5).event_queue ∧
    (exec initial_state [.set_enabled true, .push 9 1 1, .push 3 2 2, .push 9 3 3,
        .run 4, .push 1 4 4]).event_queue =
      [⟨1, 4, 4⟩, ⟨9, 3, 3⟩, ⟨9, 1, 1⟩] :=
  ⟨sort_invariant.1 _ 7 3 3 rfl (by decide), sort_invariant.2.1 _ 5 (by decide), by decide⟩


/-! ### Ties -/

theorem queue_insert_filter_eq (event : DeterministicEvent) (q : List DeterministicEvent)
    (w : Nat) :
    (queue_insert event q).filter (fun e => decide (e.when_instrs = w)) =
      (event :: q).filter (fun e => decide (e.when_instrs = w)) := by
  induction q with
  | nil => rfl
  | cons e q ih =>
    rw [queue_insert_cons]
    by_cases hle : event.when_instrs ≤ e.when_instrs
    · rw [if_pos hle]
    · rw [if_neg hle]
      have hne : ¬ (e.when_instrs = w ∧ event.when_instrs = w) := fun h =>
        hle (by rw [h.1, h.2])
      rw [List.filter_cons, ih]
      simp only [List.filter_cons]
      by_cases h1 : e.when_instrs = w <;> by_cases h2 : event.when_instrs = w
      · exact absurd ⟨h1, h2⟩ hne
      · simp [h1, h2]
      · simp [h1, h2]
      · simp [h1, h2]

theorem push_all_enabled (ps : List (Nat × Nat × Nat)) (s : QueueState)
    (h : deterministic_enabled s = true) :
    deterministic_enabled (push_all s ps) = true ∧
    (push_all s ps).trace = s.trace ∧
    (push_all s ps).current_icount = s.current_icount ∧
    (ps ≠ [] → (push_all s ps).queue_initialized = true) ∧
    (ps = [] → push_all s ps = s) := by
  induction ps generalizing s with
  | nil => simp [push_all, h]
  | cons p ps ih =>
    have h1 : deterministic_enabled (deterministic_queue_push s p.1 p.2.1 p.2.2) = true := by
      rw [push_enabled s _ _ _ h]; exact h
    obtain ⟨a, b, c, d, e⟩ := ih _ h1
    have hstep : push_all s (p :: ps) =
        push_all (deterministic_queue_push s p.1 p.2.1 p.2.2) ps := rfl
    rw [hstep]
    refine ⟨a, ?_, ?_, ?_, fun hne => absurd hne (List.cons_ne_nil _ _)⟩
    · rw [b, push_enabled s _ _ _ h]
    · rw [c, push_enabled s _ _ _ h]
    · intro _
      by_cases hps : ps = []
      · rw [e hps, push_enabled s _ _ _ h]
      · exact d hps

theorem push_all_filter_eq (ps : List (Nat × Nat × Nat)) (s : QueueState)
    (h : deterministic_enabled s = true) (w : Nat) :
    (push_all s ps).event_queue.filter (fun e => decide (e.when_instrs = w)) =
      ((ps.map to_event).reverse ++ s.event_queue).filter
        (fun e => decide (e.when_instrs = w)) := by
  induction ps generalizing s with
  | nil => rfl
  | cons p ps ih =>
    have h1 : deterministic_enabled (deterministic_queue_push s p.1 p.2.1 p.2.2) = true := by
      rw [push_enabled s _ _ _ h]; exact h
    have hstep : push_all s (p :: ps) =
        push_all (deterministic_queue_push s p.1 p.2.1 p.2.2) ps := rfl
    rw [hstep, ih _ h1, push_enabled s _ _ _ h]
    simp only [List.filter_append, List.map_cons, List.reverse_cons, List.append_assoc]
    rw [queue_insert_filter_eq]
    congr 1
    rw [← List.filter_append]
    rfl

theorem push_all_sorted (ps : List (Nat × Nat × Nat)) (s : QueueState)
    (h : queue_sorted s.event_queue) : queue_sorted (push_all s ps).event_queue := by
  induction ps generalizing s with
  | nil => exact h
  | cons p ps ih => exact ih _ (push_sorted s _ _ _ h)

theorem push_all_perm (ps : List (Nat × Nat × Nat)) (s : QueueState)
    (h : deterministic_enabled s = true) :
    (push_all s ps).event_queue.Perm (ps.map to_event ++ s.event_queue) := by
  induction ps generalizing s with
  | nil => exact List.Perm.refl _
  | cons p ps ih =>
    have h1 : deterministic_enabled (deterministic_queue_push s p.1 p.2.1 p.2.2) = true := by
      rw [push_enabled s _ _ _ h]; exact h
    have hstep : push_all s (p :: ps) =
        push_all (deterministic_queue_push s p.1 p.2.1 p.2.2) ps := rfl
    rw [hstep]
    refine (ih _ h1).trans ?_
    rw [push_enabled s _ _ _ h]
    simp only [List.map_cons, List.cons_append]
    refine (List.Perm.append_left _ (queue_insert_perm _ _)).trans ?_
    exact List.perm_middle

/-- The queue part of a run in an enabled state after pushes onto an empty
queue: the log grows by the due events in queue order, whether or not the
pushes were the first to initialize the queue. -/
theorem run_push_all_trace (ps : List (Nat × Nat × Nat)) (s : QueueState) (n : Nat)
    (h : deterministic_enabled s = true) (hq : s.event_queue = []) :
    (deterministic_queue_run (push_all s ps) n).trace =
      s.trace ++ (push_all s ps).event_queue.filter (fun e => decide (e.when_instrs ≤ n)) ∧
    (deterministic_queue_run (push_all s ps) n).event_queue =
      (push_all s ps).event_queue.filter (fun e => decide (n < e.when_instrs)) := by
  obtain ⟨a, b, _, d, e⟩ := push_all_enabled ps s h
  have hs : queue_sorted (push_all s ps).event_queue :=
    push_all_sorted ps s (by rw [hq]; simp [queue_sorted])
  by_cases hps : ps = []
  · rw [e hps]
    cases hi : s.queue_initialized
    · rw [run_inactive s n (Or.inr hi), hq]; simp
    · rw [run_active s n h hi, hq]; simp
  · rw [run_active _ n a (d hps)]
    simp only
    rw [sorted_takeWhile_eq_filter n _ hs, sorted_dropWhile_eq_filter n _ hs, b]
    exact ⟨rfl, rfl⟩


/-- C2, as stated, fails.  Pushing A (callback 1) at 100, then B (callback 2)
at 100, then C (callback 3) at 200 in enabled mode puts B in front of A, and
`deterministic_queue_run` to 150 calls B and then A, not A and then B. -/
theorem fifo_tie_break_counterexample :
    (push_all enabled_state [(100, 1, 0), (100, 2, 0), (200, 3, 0)]).event_queue =
      [⟨100, 2, 0⟩, ⟨100, 1, 0⟩, ⟨200, 3, 0⟩] ∧
    (deterministic_queue_run
      (push_all enabled_state [(100, 1, 0), (100, 2, 0), (200, 3, 0)]) 150).trace =
      [⟨100, 2, 0⟩, ⟨100, 1, 0⟩] ∧
    (deterministic_queue_run
      (push_all enabled_state [(100, 1, 0), (100, 2, 0), (200, 3, 0)]) 150).trace ≠
      [⟨100, 1, 0⟩, ⟨100, 2, 0⟩] := by
  decide

/-- C2, amended: ties are last-in first-out.  For pushes in enabled mode onto
an empty queue and every due-count `w`, the events of the queue due at `w` are
the pushed events due at `w` in the reverse of their push order;
`deterministic_queue_run` to `n` calls the due events in queue order, so for
`w ≤ n` the calls for events due at `w` come in reverse push order too. -/
theorem lifo_tie_break (s : QueueState) (ps : List (Nat × Nat × Nat)) (w n : Nat)
    (h : deterministic_enabled s = true) (hq : s.event_queue = []) :
    (push_all s ps).event_queue.filter (fun e => decide (e.when_instrs = w)) =
      (ps.map to_event).reverse.filter (fun e => decide (e.when_instrs = w)) ∧
    (deterministic_queue_run (push_all s ps) n).trace =
      s.trace ++ (push_all s ps).event_queue.filter (fun e => decide (e.when_instrs ≤ n)) ∧
    (w ≤ n →
      ((push_all s ps).event_queue.filter (fun e => decide (e.when_instrs ≤ n))).filter
          (fun e => decide (e.when_instrs = w)) =
        (ps.map to_event).reverse.filter (fun e => decide (e.when_instrs = w))) := by
  have h1 : (push_all s ps).event_queue.filter (fun e => decide (e.when_instrs = w)) =
      (ps.map to_event).reverse.filter (fun e => decide (e.when_instrs = w)) := by
    rw [push_all_filter_eq ps s h w, hq, List.append_nil]
  refine ⟨h1, (run_push_all_trace ps s n h hq).1, fun hw => ?_⟩
  rw [← h1, List.filter_filter]
  congr 1
  funext e
  by_cases he : e.when_instrs = w
  · simp [he, hw]
  · simp [he]

/-- C2, amended, at the scenario of the claim: A at 100, B at 100, C at 200
and a run to 150 call B and then A, and not C. -/
theorem lifo_tie_break_witness :
    (deterministic_enabled enabled_state = true ∧ enabled_state.event_queue = []) ∧
    (push_all enabled_state [(100, 1, 0), (100, 2, 0), (200, 3, 0)]).event_queue.filter
        (fun e => decide (e.when_instrs = 100)) = [⟨100, 2, 0⟩, ⟨100, 1, 0⟩] ∧
    (deterministic_queue_run
      (push_all enabled_state [(100, 1, 0), (100, 2, 0), (200, 3, 0)]) 150).trace =
      [⟨100, 2, 0⟩, ⟨100, 1, 0⟩] :=
  ⟨⟨rfl, rfl⟩,
    (lifo_tie_break enabled_state [(100, 1, 0), (100, 2, 0), (200, 3, 0)] 100 150
      rfl rfl).1.trans (by decide),
    (lifo_tie_break enabled_state [(100, 1, 0), (100, 2, 0), (200, 3, 0)] 100 150
      rfl rfl).2.1.trans (by decide)⟩

/-- C3 (threshold).  In an enabled, initialized state with a sorted queue,
`deterministic_queue_run` to `n` (callbacks leave the queue alone) appends to
the call log exactly the events due at or before `n`, each once, in queue
order and with the callback and argument stored in the event, and leaves in
the queue exactly the events due after `n`, in their order. -/
theorem run_threshold (s : QueueState) (n : Nat) (h : deterministic_enabled s = true)
    (hi : s.queue_initialized = true) (hs : queue_sorted s.event_queue) :
    (deterministic_queue_run s n).trace =
      s.trace ++ s.event_queue.filter (fun e => decide (e.when_instrs ≤ n)) ∧
    (deterministic_queue_run s n).event_queue =
      s.event_queue.filter (fun e => decide (n < e.when_instrs)) := by
  rw [run_active s n h hi]
  simp only
  rw [sorted_takeWhile_eq_filter n _ hs, sorted_dropWhile_eq_filter n _ hs]
  exact ⟨rfl, rfl⟩

/-- C3 at due-counts 5, 10, 15: a run to 10 calls the events due at 5 and 10
and keeps the one due at 15; a run to 15 then calls that one. -/
theorem run_threshold_witness :
    (deterministic_enabled (push_all enabled_state [(5, 1, 51), (10, 2, 52), (15, 3, 53)]) = true ∧
      (push_all enabled_state [(5, 1, 51), (10, 2, 52), (15, 3, 53)]).queue_initialized = true ∧
      queue_sorted (push_all enabled_state [(5, 1, 51), (10, 2, 52), (15, 3, 53)]).event_queue) ∧
    ((deterministic_queue_run
        (push_all enabled_state [(5, 1, 51), (10, 2, 52), (15, 3, 53)]) 10).trace =
        [⟨5, 1, 51⟩, ⟨10, 2, 52⟩] ∧
      (deterministic_queue_run
        (push_all enabled_state [(5, 1, 51), (10, 2, 52), (15, 3, 53)]) 10).event_queue =
        [⟨15, 3, 53⟩]) ∧
    (deterministic_queue_run (deterministic_queue_run
        (push_all enabled_state [(5, 1, 51), (10, 2, 52), (15, 3, 53)]) 10) 15).trace =
      [⟨5, 1, 51⟩, ⟨10, 2, 52⟩, ⟨15, 3, 53⟩] :=
  ⟨⟨rfl, rfl, by decide⟩,
    ⟨(run_threshold (push_all enabled_state [(5, 1, 51), (10, 2, 52), (15, 3, 53)]) 10
        rfl rfl (by decide)).1.trans (by decide),
      (run_threshold (push_all enabled_state [(5, 1, 51), (10, 2, 52), (15, 3, 53)]) 10
        rfl rfl (by decide)).2.trans (by decide)⟩,
    by decide⟩


/-- C4 (end-to-end ordering).  From an enabled state with an empty queue, after
any pushes and `deterministic_queue_run` to `n` the calls made by the run are
in non-decreasing `when_instrs` order and are a permutation of the pushed
events due at or before `n`; when the due-counts are `uint64_t` values and
`n` is `UINT64_MAX`, every pushed event is called and the queue ends empty. -/
theorem push_then_run_ordering (s : QueueState) (ps : List (Nat × Nat × Nat))
    (h : deterministic_enabled s = true) (hq : s.event_queue = []) :
    (∀ n : Nat, ∃ fired : List DeterministicEvent,
      (deterministic_queue_run (push_all s ps) n).trace = s.trace ++ fired ∧
      queue_sorted fired ∧
      fired.Perm ((ps.map to_event).filter (fun e => decide (e.when_instrs ≤ n)))) ∧
    ((∀ p ∈ ps, p.1 ≤ UINT64_MAX) →
      ∃ fired : List DeterministicEvent,
        (deterministic_queue_run (push_all s ps) UINT64_MAX).trace = s.trace ++ fired ∧
        queue_sorted fired ∧
        fired.Perm (ps.map to_event) ∧
        (deterministic_queue_run (push_all s ps) UINT64_MAX).event_queue = []) := by
  have hs : queue_sorted (push_all s ps).event_queue :=
    push_all_sorted ps s (by rw [hq]; simp [queue_sorted])
  have hp : (push_all s ps).event_queue.Perm (ps.map to_event) := by
    simpa [hq] using push_all_perm ps s h
  constructor
  · intro n
    exact ⟨_, (run_push_all_trace ps s n h hq).1,
      List.Pairwise.sublist (List.filter_sublist _) hs, hp.filter _⟩
  · intro hb
    have hall : ∀ e ∈ (push_all s ps).event_queue, e.when_instrs ≤ UINT64_MAX := by
      intro e he
      obtain ⟨p, hp1, rfl⟩ := List.mem_map.mp (hp.mem_iff.mp he)
      exact hb p hp1
    refine ⟨_, (run_push_all_trace ps s UINT64_MAX h hq).1,
      List.Pairwise.sublist (List.filter_sublist _) hs, ?_, ?_⟩
    · rw [List.filter_eq_self.mpr (fun e he => by simpa using hall e he)]
      exact hp
    · rw [(run_push_all_trace ps s UINT64_MAX h hq).2, List.filter_eq_nil_iff]
      intro e he
      simpa using hall e he

/-- C4 at the pushes 30, 10, 20, 10: a run to 20 calls 10, 10, 20 and a run to
`UINT64_MAX` calls all four and empties the queue. -/
theorem push_then_run_ordering_witness :
    (deterministic_enabled enabled_state = true ∧ enabled_state.event_queue = []) ∧
    (∃ fired : List DeterministicEvent,
      (deterministic_queue_run
        (push_all enabled_state [(30, 1, 0), (10, 2, 0), (20, 3, 0), (10, 4, 0)]) 20).trace =
        enabled_state.trace ++ fired ∧
      queue_sorted fired ∧
      fired.Perm ((([(30, 1, 0), (10, 2, 0), (20, 3, 0), (10, 4, 0)] :
        List (Nat × Nat × Nat)).map to_event).filter
          (fun e => decide (e.when_instrs ≤ 20)))) ∧
    (deterministic_queue_run
      (push_all enabled_state [(30, 1, 0), (10, 2, 0), (20, 3, 0), (10, 4, 0)])
        UINT64_MAX).event_queue = [] :=
  ⟨⟨rfl, rfl⟩,
    (push_then_run_ordering enabled_state [(30, 1, 0), (10, 2, 0), (20, 3, 0), (10, 4, 0)]
      rfl rfl).1 20,
    by decide⟩

/-- C5, as stated, fails: in the initial state (deterministic mode off, queue
not initialized) `deterministic_queue_run` to 5 returns at its guard and
`deterministic_queue_get_current_icount` still returns 0. -/
theorem get_current_icount_counterexample :
    deterministic_queue_get_current_icount (deterministic_queue_run initial_state 5) = 0 ∧
    deterministic_queue_get_current_icount (deterministic_queue_run initial_state 5) ≠ 5 := by
  decide

/-- C5, amended: after `deterministic_queue_run` to `n`,
`deterministic_queue_get_current_icount` returns `n` when deterministic mode is
enabled and the queue is initialized, and what it returned before the call
otherwise. -/
theorem get_current_icount_after_run (s : QueueState) (n : Nat) :
    deterministic_queue_get_current_icount (deterministic_queue_run s n) =
      if deterministic_enabled s = true ∧ s.queue_initialized = true then n
      else deterministic_queue_get_current_icount s := by
  unfold deterministic_queue_get_current_icount deterministic_queue_run
  cases h : deterministic_enabled s <;> cases hi : s.queue_initialized <;> simp

/-- C6 (bypass).  With deterministic mode disabled, `deterministic_queue_push`
makes exactly one call, `cb(opaque_)`, and leaves the queue, the initialized
flag, `current_icount` and the configuration as they were. -/
theorem push_bypass (s : QueueState) (w cb o : Nat) (h : deterministic_enabled s = false) :
    (deterministic_queue_push s w cb o).trace = s.trace ++ [⟨w, cb, o⟩] ∧
    (deterministic_queue_push s w cb o).event_queue = s.event_queue ∧
    (deterministic_queue_push s w cb o).queue_initialized = s.queue_initialized ∧
    (deterministic_queue_push s w cb o).current_icount = s.current_icount ∧
    (deterministic_queue_push s w cb o).cfg = s.cfg := by
  rw [push_disabled s w cb o h]
  exact ⟨rfl, rfl, rfl, rfl, rfl⟩

/-- C6 at the initial state, where deterministic mode is off: a push at 100
calls the callback once and the queue stays empty. -/
theorem push_bypass_witness :
    deterministic_enabled initial_state = false ∧
    (deterministic_queue_push initial_state 100 7 9).trace = [⟨100, 7, 9⟩] ∧
    (deterministic_queue_push initial_state 100 7 9).event_queue = [] :=
  ⟨rfl, (push_bypass initial_state 100 7 9 rfl).1, (push_bypass initial_state 100 7 9 rfl).2.1⟩


/-- C8 (run is a no-op when disabled or not initialized).  In a state with
deterministic mode disabled or `queue_initialized` false,
`deterministic_queue_run` returns the state it was given: no callback is
called, and the queue, the initialized flag and `current_icount` are unchanged. -/
theorem run_noop (s : QueueState) (n : Nat)
    (h : deterministic_enabled s = false ∨ s.queue_initialized = false) :
    deterministic_queue_run s n = s ∧
    (deterministic_queue_run s n).trace = s.trace ∧
    (deterministic_queue_run s n).event_queue = s.event_queue ∧
    (deterministic_queue_run s n).queue_initialized = s.queue_initialized ∧
    (deterministic_queue_run s n).current_icount = s.current_icount := by
  rw [run_inactive s n h]
  exact ⟨rfl, rfl, rfl, rfl, rfl⟩

/-- C8 at two states with a due event pending: one initialized with
deterministic mode off, one with deterministic mode on and not initialized. -/
theorem run_noop_witness :
    (deterministic_queue_run
      { initial_state with queue_initialized := true, event_queue := [⟨1, 1, 1⟩] } 5 =
      { initial_state with queue_initialized := true, event_queue := [⟨1, 1, 1⟩] }) ∧
    (deterministic_queue_run { enabled_state with event_queue := [⟨1, 1, 1⟩] } 5 =
      { enabled_state with event_queue := [⟨1, 1, 1⟩] }) :=
  ⟨(run_noop { initial_state with queue_initialized := true, event_queue := [⟨1, 1, 1⟩] } 5
      (Or.inl rfl)).1,
    (run_noop { enabled_state with event_queue := [⟨1, 1, 1⟩] } 5 (Or.inr rfl)).1⟩

/-- C9 (cleanup discards silently).  In an initialized state
`deterministic_queue_cleanup` calls no callback, leaves the queue empty, resets
the initialized flag and leaves `current_icount`, as returned by
`deterministic_queue_get_current_icount`, and the configuration unchanged; in
an uninitialized state it changes nothing. -/
theorem cleanup_discards (s : QueueState) :
    (s.queue_initialized = true →
      (deterministic_queue_cleanup s).trace = s.trace ∧
      (deterministic_queue_cleanup s).event_queue = [] ∧
      (deterministic_queue_cleanup s).queue_initialized = false ∧
      deterministic_queue_get_current_icount (deterministic_queue_cleanup s) =
        deterministic_queue_get_current_icount s ∧
      (deterministic_queue_cleanup s).cfg = s.cfg) ∧
    (s.queue_initialized = false → deterministic_queue_cleanup s = s) := by
  constructor
  · intro hi
    simp [deterministic_queue_cleanup, hi, cleanup_foreach_safe_eq,
      deterministic_queue_get_current_icount]
  · intro hi
    simp [deterministic_queue_cleanup, hi]

/-- C9 after three pushes and a run to 0 that is due for none of them: cleanup
leaves the log empty, the queue empty and the count at 0. -/
theorem cleanup_discards_witness :
    (deterministic_queue_cleanup
      (push_all enabled_state [(5, 1, 0), (6, 2, 0), (7, 3, 0)])).trace = [] ∧
    (deterministic_queue_cleanup
      (push_all enabled_state [(5, 1, 0), (6, 2, 0), (7, 3, 0)])).event_queue = [] ∧
    (deterministic_queue_cleanup
      (push_all enabled_state [(5, 1, 0), (6, 2, 0), (7, 3, 0)])).queue_initialized = false :=
  ⟨((cleanup_discards (push_all enabled_state [(5, 1, 0), (6, 2, 0), (7, 3, 0)])).1 rfl).1,
    ((cleanup_discards (push_all enabled_state [(5, 1, 0), (6, 2, 0), (7, 3, 0)])).1 rfl).2.1,
    ((cleanup_discards (push_all enabled_state [(5, 1, 0), (6, 2, 0), (7, 3, 0)])).1 rfl).2.2.1⟩

theorem dropWhile_dropWhile_self (p : DeterministicEvent → Bool) (q : List DeterministicEvent) :
    (q.dropWhile p).dropWhile p = q.dropWhile p ∧ (q.dropWhile p).takeWhile p = [] := by
  induction q with
  | nil => exact ⟨rfl, rfl⟩
  | cons e q ih =>
    cases h : p e
    · simp [List.dropWhile, List.takeWhile, h]
    · simpa [List.dropWhile, h] using ih

/-- C10 (idempotent drain).  A second `deterministic_queue_run` to the same
count right after a first one (callbacks leave the queue alone) returns the
state the first call returned, queue, `current_icount` and initialized flag
included, and its call log: the second call calls no callback.  This holds in
every state, whatever the mode and whether or not the queue is sorted. -/
theorem run_idempotent (s : QueueState) (n : Nat) :
    deterministic_queue_run (deterministic_queue_run s n) n = deterministic_queue_run s n ∧
    (deterministic_queue_run (deterministic_queue_run s n) n).trace =
      (deterministic_queue_run s n).trace := by
  have key : deterministic_queue_run (deterministic_queue_run s n) n =
      deterministic_queue_run s n := by
    by_cases ha : deterministic_enabled s = true ∧ s.queue_initialized = true
    · rw [run_active s n ha.1 ha.2]
      rw [run_active _ n (by exact ha.1) (by exact ha.2)]
      simp [(dropWhile_dropWhile_self _ s.event_queue).1,
        (dropWhile_dropWhile_self _ s.event_queue).2]
    · have hoff : deterministic_enabled s = false ∨ s.queue_initialized = false := by
        rcases Bool.eq_false_or_eq_true (deterministic_enabled s) with h1 | h1
        · rcases Bool.eq_false_or_eq_true s.queue_initialized with h2 | h2
          · exact absurd ⟨h1, h2⟩ ha
          · exact Or.inr h2
        · exact Or.inl h1
      rw [run_inactive s n hoff, run_inactive s n hoff]
  exact ⟨key, by rw [key]⟩


/-! ## Callbacks that push -/

theorem scan_index_cons (event e : DeterministicEvent) (q : List DeterministicEvent) :
    scan_index event (e :: q) = 1 + insert_index event q := by
  cases q with
  | nil => rfl
  | cons nxt rest =>
    simp only [scan_index, insert_index]
    split <;> rfl

theorem insert_index_cons (event e : DeterministicEvent) (q : List DeterministicEvent) :
    insert_index event (e :: q) =
      if event.when_instrs ≤ e.when_instrs then 0 else 1 + insert_index event q := by
  simp only [insert_index, scan_index_cons]

/-- The index computed by `insert_index` is the place where `queue_insert`
links the node. -/
theorem queue_insert_eq_take_drop_index (event : DeterministicEvent)
    (q : List DeterministicEvent) :
    queue_insert event q =
      q.take (insert_index event q) ++ event :: q.drop (insert_index event q) := by
  induction q with
  | nil => rfl
  | cons e q ih =>
    rw [queue_insert_cons, insert_index_cons]
    by_cases h : event.when_instrs ≤ e.when_instrs
    · simp [h]
    · simp only [h, if_false]
      rw [Nat.add_comm 1, List.take_succ_cons, List.drop_succ_cons, List.cons_append, ← ih]

theorem insert_split (event : DeterministicEvent) (front back : List DeterministicEvent) :
    (insert_index event (front ++ back) ≤ front.length →
      ∃ front', queue_insert event (front ++ back) = front' ++ back ∧
        front'.length = front.length + 1 ∧ ∀ e ∈ front', e = event ∨ e ∈ front) ∧
    (front.length < insert_index event (front ++ back) →
      ∃ back', queue_insert event (front ++ back) = front ++ back' ∧
        back'.Perm (event :: back)) := by
  induction front with
  | nil =>
    constructor
    · intro h
      have h0 : insert_index event back = 0 := by simpa using h
      refine ⟨[event], ?_, rfl, fun e he => Or.inl (by simpa using he)⟩
      have := queue_insert_eq_take_drop_index event back
      rw [h0] at this
      simpa using this
    · intro _
      exact ⟨queue_insert event back, rfl, queue_insert_perm event back⟩
  | cons a front ih =>
    rw [List.cons_append, queue_insert_cons, insert_index_cons]
    by_cases hle : event.when_instrs ≤ a.when_instrs
    · simp only [hle, if_true]
      constructor
      · intro _
        refine ⟨event :: a :: front, rfl, rfl, fun e he => ?_⟩
        rcases List.mem_cons.mp he with rfl | he
        · exact Or.inl rfl
        · exact Or.inr he
      · intro h
        exact absurd h (Nat.not_lt_zero _)
    · simp only [hle, if_false]
      constructor
      · intro h
        have h1 : insert_index event (front ++ back) ≤ front.length := by
          simp only [List.length_cons] at h; omega
        obtain ⟨front', e1, e2, e3⟩ := ih.1 h1
        refine ⟨a :: front', by rw [e1]; rfl, by simp [e2], fun e he => ?_⟩
        rcases List.mem_cons.mp he with rfl | he
        · exact Or.inr (List.mem_cons_self _ _)
        · rcases e3 e he with h2 | h2
          · exact Or.inl h2
          · exact Or.inr (List.mem_cons_of_mem _ h2)
      · intro h
        have h1 : front.length < insert_index event (front ++ back) := by
          simp only [List.length_cons] at h; omega
        obtain ⟨back', e1, e2⟩ := ih.2 h1
        exact ⟨back', by rw [e1]; rfl, e2⟩


theorem callback_push_future (n : Nat) (s : QueueState) (front back : List DeterministicEvent)
    (p : Nat × Nat × Nat) (hp : n < p.1) (h : deterministic_enabled s = true)
    (hq : s.event_queue = front ++ back) (hfront : ∀ e ∈ front, n < e.when_instrs) :
    ∃ front' back',
      (callback_push (s, front.length) p).1.event_queue = front' ++ back' ∧
      (callback_push (s, front.length) p).2 = front'.length ∧
      (∀ e ∈ front', n < e.when_instrs) ∧
      (back'.filter (fun e => decide (e.when_instrs ≤ n))).length =
        (back.filter (fun e => decide (e.when_instrs ≤ n))).length ∧
      deterministic_enabled (callback_push (s, front.length) p).1 = true ∧
      (queue_sorted s.event_queue →
        queue_sorted (callback_push (s, front.length) p).1.event_queue) := by
  have hsort : queue_sorted s.event_queue →
      queue_sorted (callback_push (s, front.length) p).1.event_queue :=
    fun hs => push_sorted s _ _ _ hs
  have hen : deterministic_enabled (callback_push (s, front.length) p).1 = true := by
    show deterministic_enabled (deterministic_queue_push s p.1 p.2.1 p.2.2) = true
    rw [push_enabled s _ _ _ h]; exact h
  have hqueue : (callback_push (s, front.length) p).1.event_queue =
      queue_insert (to_event p) (front ++ back) := by
    show (deterministic_queue_push s p.1 p.2.1 p.2.2).event_queue = _
    rw [push_enabled s _ _ _ h, ← hq]; rfl
  have hpos : (callback_push (s, front.length) p).2 =
      if insert_index (to_event p) (front ++ back) ≤ front.length then front.length + 1
      else front.length := by
    show (if insert_index (to_event p) s.event_queue ≤ front.length then _ else _) = _
    rw [hq]
  by_cases hi : insert_index (to_event p) (front ++ back) ≤ front.length
  · obtain ⟨front', e1, e2, e3⟩ := (insert_split (to_event p) front back).1 hi
    refine ⟨front', back, by rw [hqueue, e1], by rw [hpos, if_pos hi, e2], ?_, rfl, hen, hsort⟩
    intro e he
    rcases e3 e he with rfl | h2
    · exact hp
    · exact hfront e h2
  · obtain ⟨back', e1, e2⟩ := (insert_split (to_event p) front back).2 (Nat.lt_of_not_le hi)
    refine ⟨front, back', by rw [hqueue, e1], by rw [hpos, if_neg hi], hfront, ?_, hen, hsort⟩
    have := (e2.filter (fun e => decide (e.when_instrs ≤ n))).length_eq
    rw [this, List.filter_cons]
    have hnot : ¬ (to_event p).when_instrs ≤ n := Nat.not_le.mpr hp
    simp [hnot]

theorem callback_pushes_future (n : Nat) (reqs : List (Nat × Nat × Nat)) (s : QueueState)
    (front back : List DeterministicEvent) (hp : ∀ p ∈ reqs, n < p.1)
    (h : deterministic_enabled s = true)
    (hq : s.event_queue = front ++ back) (hfront : ∀ e ∈ front, n < e.when_instrs) :
    ∃ front' back',
      (reqs.foldl callback_push (s, front.length)).1.event_queue = front' ++ back' ∧
      (reqs.foldl callback_push (s, front.length)).2 = front'.length ∧
      (∀ e ∈ front', n < e.when_instrs) ∧
      (back'.filter (fun e => decide (e.when_instrs ≤ n))).length =
        (back.filter (fun e => decide (e.when_instrs ≤ n))).length ∧
      deterministic_enabled (reqs.foldl callback_push (s, front.length)).1 = true ∧
      (queue_sorted s.event_queue →
        queue_sorted (reqs.foldl callback_push (s, front.length)).1.event_queue) := by
  induction reqs generalizing s front back with
  | nil => exact ⟨front, back, hq, rfl, hfront, rfl, h, id⟩
  | cons p reqs ih =>
    obtain ⟨f1, b1, e1, e2, e3, e4, e5, e6⟩ :=
      callback_push_future n s front back p (hp p (List.mem_cons_self _ _)) h hq hfront
    have hstep : (p :: reqs).foldl callback_push (s, front.length) =
        reqs.foldl callback_push ((callback_push (s, front.length) p).1, f1.length) := by
      rw [List.foldl_cons, ← e2]
    obtain ⟨f2, b2, g1, g2, g3, g4, g5, g6⟩ :=
      ih (callback_push (s, front.length) p).1 f1 b1
        (fun q hq2 => hp q (List.mem_cons_of_mem _ hq2)) e5 e1 e3
    rw [hstep]
    exact ⟨f2, b2, g1, g2, g3, g4.trans e4, g5, fun hs => g6 (e6 hs)⟩

theorem callback_pushes_fields (reqs : List (Nat × Nat × Nat)) (s : QueueState) (c : Nat)
    (h : deterministic_enabled s = true) (hi : s.queue_initialized = true) :
    (reqs.foldl callback_push (s, c)).1.current_icount = s.current_icount ∧
    (reqs.foldl callback_push (s, c)).1.queue_initialized = true ∧
    (reqs.foldl callback_push (s, c)).1.cfg = s.cfg ∧
    (reqs.foldl callback_push (s, c)).1.trace = s.trace := by
  induction reqs generalizing s c with
  | nil => exact ⟨rfl, hi, rfl, rfl⟩
  | cons p reqs ih =>
    have h1 : deterministic_enabled (callback_push (s, c) p).1 = true := by
      show deterministic_enabled (deterministic_queue_push s p.1 p.2.1 p.2.2) = true
      rw [push_enabled s _ _ _ h]; exact h
    have h2 : (callback_push (s, c) p).1.queue_initialized = true := by
      show (deterministic_queue_push s p.1 p.2.1 p.2.2).queue_initialized = true
      rw [push_enabled s _ _ _ h]
    obtain ⟨a1, a2, a3, a4⟩ := ih (callback_push (s, c) p).1 (callback_push (s, c) p).2 h1 h2
    rw [List.foldl_cons]
    refine ⟨a1.trans ?_, a2, a3.trans ?_, a4.trans ?_⟩
    · show (deterministic_queue_push s p.1 p.2.1 p.2.2).current_icount = _
      rw [push_enabled s _ _ _ h]
    · show (deterministic_queue_push s p.1 p.2.1 p.2.2).cfg = _
      rw [push_enabled s _ _ _ h]
    · show (deterministic_queue_push s p.1 p.2.1 p.2.2).trace = _
      rw [push_enabled s _ _ _ h]

theorem run_foreach_safe_reentrant_future {σ : Type} (cbs : Callbacks σ) (n : Nat)
    (hf : ∀ c o y, ∀ p ∈ (cbs c o y).2, n < p.1) :
    ∀ (fuel : Nat) (s : QueueState) (front back : List DeterministicEvent) (x : σ),
      deterministic_enabled s = true → s.queue_initialized = true →
      s.event_queue = front ++ back →
      (∀ e ∈ front, n < e.when_instrs) →
      (back.filter (fun e => decide (e.when_instrs ≤ n))).length < fuel →
      ∃ s' x', run_foreach_safe_reentrant cbs n fuel s front.length x = some (s', x') ∧
        (∀ e ∈ s'.event_queue.head?, n < e.when_instrs) ∧
        (queue_sorted s.event_queue → ∀ e ∈ s'.event_queue, n < e.when_instrs) ∧
        s'.current_icount = s.current_icount ∧ s'.queue_initialized = true := by
  intro fuel
  induction fuel with
  | zero => intro s front back x _ _ _ _ hlt; exact absurd hlt (Nat.not_lt_zero _)
  | succ fuel ih =>
    intro s front back x h hi hq hfront hlt
    cases back with
    | nil =>
      have hget : s.event_queue[front.length]? = none := by
        rw [hq, List.append_nil]; exact List.getElem?_eq_none (Nat.le_refl _)
      refine ⟨s, x, by simp [run_foreach_safe_reentrant, hget], ?_, ?_, rfl, hi⟩
      · intro e he
        rw [hq, List.append_nil] at he
        exact hfront e (List.mem_of_mem_head? he)
      · intro _ e he
        rw [hq, List.append_nil] at he
        exact hfront e he
    | cons ev back1 =>
      have hget : s.event_queue[front.length]? = some ev := by
        rw [hq, List.getElem?_append_right (Nat.le_refl _)]; simp
      by_cases hdue : ev.when_instrs > n
      · refine ⟨s, x, by simp [run_foreach_safe_reentrant, hget, hdue], ?_, ?_, rfl, hi⟩
        · intro e he
          rw [hq] at he
          have hmem := List.mem_of_mem_head? he
          cases front with
          | nil =>
            simp only [List.nil_append, List.head?_cons, Option.mem_def,
              Option.some.injEq] at he
            rw [← he]; exact hdue
          | cons a front =>
            simp only [List.cons_append, List.head?_cons, Option.mem_def,
              Option.some.injEq] at he
            rw [← he]; exact hfront a (List.mem_cons_self _ _)
        · intro hs e he
          rw [hq] at he hs
          rcases List.mem_append.mp he with h1 | h1
          · exact hfront e h1
          · have hs2 : queue_sorted (ev :: back1) :=
              List.Pairwise.sublist (List.sublist_append_right _ _) hs
            rcases List.mem_cons.mp h1 with rfl | h2
            · exact hdue
            · exact Nat.lt_of_lt_of_le hdue ((List.pairwise_cons.mp hs2).1 e h2)
      · have herase : s.event_queue.eraseIdx front.length = front ++ back1 := by
          rw [hq, List.eraseIdx_append_of_length_le (Nat.le_refl _)]; simp
        have hlt1 : (back1.filter (fun e => decide (e.when_instrs ≤ n))).length < fuel := by
          have hle : ev.when_instrs ≤ n := Nat.le_of_not_lt hdue
          rw [List.filter_cons] at hlt
          simp only [hle, decide_True, if_true, List.length_cons] at hlt
          omega
        obtain ⟨f2, b2, g1, g2, g3, g4, g5, g6⟩ :=
          callback_pushes_future n (cbs ev.callback ev.opaque_ x).2
            { s with event_queue := s.event_queue.eraseIdx front.length,
                     trace := s.trace ++ [ev] }
            front back1 (hf _ _ _) h herase hfront
        obtain ⟨c1, c2, _, _⟩ :=
          callback_pushes_fields (cbs ev.callback ev.opaque_ x).2
            { s with event_queue := s.event_queue.eraseIdx front.length,
                     trace := s.trace ++ [ev] }
            front.length h hi
        obtain ⟨s', x', r1, r2, r3, r4, r5⟩ :=
          ih _ f2 b2 (cbs ev.callback ev.opaque_ x).1 g5 c2 g1 g3 (by rw [g4]; exact hlt1)
        refine ⟨s', x', ?_, r2, ?_, r4.trans c1, r5⟩
        · rw [← r1, ← g2]
          simp [run_foreach_safe_reentrant, hget, hdue]
        · intro hs
          apply r3
          apply g6
          show queue_sorted (s.event_queue.eraseIdx front.length)
          exact List.Pairwise.sublist (List.eraseIdx_sublist _ _) hs

/-- With callbacks that push nothing the loop with a node index is the loop
`run_foreach_safe`, once it is allowed more iterations than the queue has
nodes. -/
theorem run_foreach_safe_reentrant_inert {σ : Type} (cbs : Callbacks σ) (n : Nat)
    (hinert : ∀ c o y, (cbs c o y).2 = []) :
    ∀ (fuel : Nat) (s : QueueState) (x : σ), s.event_queue.length < fuel →
      ∃ x', run_foreach_safe_reentrant cbs n fuel s 0 x =
        some ({ s with event_queue := (run_foreach_safe n s.event_queue s.trace).1,
                       trace := (run_foreach_safe n s.event_queue s.trace).2 }, x') := by
  intro fuel
  induction fuel with
  | zero => intro s x hlt; exact absurd hlt (Nat.not_lt_zero _)
  | succ fuel ih =>
    intro s x hlt
    cases hq : s.event_queue with
    | nil =>
      refine ⟨x, ?_⟩
      simp only [run_foreach_safe_reentrant, hq, run_foreach_safe]
      cases s; simp_all
    | cons ev rest =>
      by_cases hdue : ev.when_instrs > n
      · refine ⟨x, ?_⟩
        simp only [run_foreach_safe_reentrant, hq, run_foreach_safe, hdue, if_true]
        cases s; simp_all
      · rw [hq] at hlt
        obtain ⟨x', hx⟩ := ih { s with event_queue := rest, trace := s.trace ++ [ev] }
          (cbs ev.callback ev.opaque_ x).1 (by simpa using hlt)
        refine ⟨x', ?_⟩
        simp only [run_foreach_safe_reentrant, hq, run_foreach_safe, hdue, if_false,
          hinert, List.foldl_nil, List.getElem?_cons_zero, List.eraseIdx_cons_zero]
        rw [hx]


/-- A run that returns within `fuel` iterations returns the same result when
allowed more. -/
theorem run_foreach_safe_reentrant_fuel_succ {σ : Type} (cbs : Callbacks σ) (n : Nat) :
    ∀ (fuel : Nat) (s : QueueState) (pos : Nat) (x : σ) (r : QueueState × σ),
      run_foreach_safe_reentrant cbs n fuel s pos x = some r →
      run_foreach_safe_reentrant cbs n (fuel + 1) s pos x = some r := by
  intro fuel
  induction fuel with
  | zero => intro s pos x r h; simp [run_foreach_safe_reentrant] at h
  | succ fuel ih =>
    intro s pos x r h
    rw [run_foreach_safe_reentrant] at h ⊢
    cases hget : s.event_queue[pos]? with
    | none => rw [hget] at h; exact h
    | some ev =>
      rw [hget] at h
      simp only at h ⊢
      by_cases hdue : ev.when_instrs > n
      · rw [if_pos hdue] at h ⊢; exact h
      · rw [if_neg hdue] at h ⊢
        exact ih _ _ _ _ h

theorem run_reentrant_fuel_mono {σ : Type} (cbs : Callbacks σ) (s : QueueState) (x : σ)
    (n fuel fuel' : Nat) (r : QueueState × σ) (hle : fuel ≤ fuel')
    (h : deterministic_queue_run_reentrant cbs fuel s x n = some r) :
    deterministic_queue_run_reentrant cbs fuel' s x n = some r := by
  induction hle with
  | refl => exact h
  | step _ ih =>
    unfold deterministic_queue_run_reentrant at ih ⊢
    split
    · rename_i hc; rw [if_pos hc] at ih; exact ih
    · rename_i hc; rw [if_neg hc] at ih
      exact run_foreach_safe_reentrant_fuel_succ cbs n _ _ _ _ _ ih

/-- With callbacks that push nothing, `deterministic_queue_run_reentrant`
returns what `deterministic_queue_run` returns. -/
theorem run_reentrant_inert {σ : Type} (cbs : Callbacks σ) (s : QueueState) (x : σ)
    (n fuel : Nat) (hinert : ∀ c o y, (cbs c o y).2 = [])
    (hfuel : s.event_queue.length < fuel) :
    ∃ x', deterministic_queue_run_reentrant cbs fuel s x n =
      some (deterministic_queue_run s n, x') := by
  unfold deterministic_queue_run_reentrant deterministic_queue_run
  split
  · exact ⟨x, rfl⟩
  · obtain ⟨x', hx⟩ := run_foreach_safe_reentrant_inert cbs n hinert fuel
      { s with current_icount := n } x hfuel
    exact ⟨x', hx⟩

/-- C7, as stated, fails.  Deterministic mode is on, the queue is initialized
and holds one event due at 5 whose callback (address 1) pushes an event due
at 7.  `deterministic_queue_run` to 10 reads `next` (no node) before the
callback runs, so the loop ends after that callback: the run returns with the
event due at 7 at the head of the queue, and 7 does not exceed 10.  With a
second event due at 8 in the queue, that event is called while the event due
at 7, pushed in front of it, is left pending.  By `run_reentrant_fuel_mono`
the results do not depend on the number of iterations allowed. -/
theorem run_reentrant_counterexample :
    deterministic_queue_run_reentrant (pushes_one 7) 2
      { enabled_state with queue_initialized := true, event_queue := [⟨5, 1, 0⟩] } () 10 =
      some ({ enabled_state with queue_initialized := true, current_icount := 10,
                                 event_queue := [⟨7, 2, 0⟩], trace := [⟨5, 1, 0⟩] }, ()) ∧
    ¬ (∀ e ∈ ([⟨7, 2, 0⟩] : List DeterministicEvent).head?, 10 < e.when_instrs) ∧
    deterministic_queue_run_reentrant (pushes_one 7) 3
      { enabled_state with queue_initialized := true,
                           event_queue := [⟨5, 1, 0⟩, ⟨8, 3, 0⟩] } () 10 =
      some ({ enabled_state with queue_initialized := true, current_icount := 10,
                                 event_queue := [⟨7, 2, 0⟩],
                                 trace := [⟨5, 1, 0⟩, ⟨8, 3, 0⟩] }, ()) := by
  refine ⟨by decide, ?_, by decide⟩
  intro h
  exact absurd (h ⟨7, 2, 0⟩ rfl) (by decide)

/-- C7, amended: the run drains to the head condition under re-entrant pushes
of events due after `n`.  In an enabled, initialized state with a sorted queue,
when every push made by a callback has a due-count greater than `n`,
`deterministic_queue_run` to `n` returns (within one iteration more than the
queue has nodes), and at return the queue is empty or its head is due after
`n`; no event due at or before `n` is left pending, and `current_icount` is
`n`. -/
theorem run_reentrant_drains {σ : Type} (cbs : Callbacks σ) (s : QueueState) (x : σ)
    (n fuel : Nat) (h : deterministic_enabled s = true) (hi : s.queue_initialized = true)
    (hs : queue_sorted s.event_queue)
    (hf : ∀ c o y, ∀ p ∈ (cbs c o y).2, n < p.1)
    (hfuel : s.event_queue.length < fuel) :
    ∃ s' x', deterministic_queue_run_reentrant cbs fuel s x n = some (s', x') ∧
      (∀ e ∈ s'.event_queue.head?, n < e.when_instrs) ∧
      (∀ e ∈ s'.event_queue, n < e.when_instrs) ∧
      s'.current_icount = n := by
  have hlt : (s.event_queue.filter (fun e => decide (e.when_instrs ≤ n))).length < fuel :=
    Nat.lt_of_le_of_lt (List.length_filter_le _ _) hfuel
  obtain ⟨s', x', r1, r2, r3, r4, _⟩ :=
    run_foreach_safe_reentrant_future cbs n hf fuel { s with current_icount := n }
      [] s.event_queue x h hi rfl (fun e he => absurd he (List.not_mem_nil e)) hlt
  refine ⟨s', x', ?_, r2, r3 hs, r4⟩
  rw [← r1]
  simp [deterministic_queue_run_reentrant, h, hi]

/-- C7, amended, at a queue with events due at 5 and 8 and a run to 10, where
the callback of the first event pushes an event due at 20: both events are
called and the queue is left with the event due at 20. -/
theorem run_reentrant_drains_witness :
    (∀ c o y, ∀ p ∈ (pushes_one 20 c o y).2, 10 < p.1) ∧
    (∃ s' x', deterministic_queue_run_reentrant (pushes_one 20) 3
        { enabled_state with queue_initialized := true,
                             event_queue := [⟨5, 1, 0⟩, ⟨8, 3, 0⟩] } () 10 = some (s', x') ∧
      (∀ e ∈ s'.event_queue.head?, 10 < e.when_instrs) ∧
      (∀ e ∈ s'.event_queue, 10 < e.when_instrs) ∧
      s'.current_icount = 10) ∧
    deterministic_queue_run_reentrant (pushes_one 20) 3
      { enabled_state with queue_initialized := true,
                           event_queue := [⟨5, 1, 0⟩, ⟨8, 3, 0⟩] } () 10 =
      some ({ enabled_state with queue_initialized := true, current_icount := 10,
                                 event_queue := [⟨20, 2, 0⟩],
                                 trace := [⟨5, 1, 0⟩, ⟨8, 3, 0⟩] }, ()) := by
  have hf : ∀ c o y, ∀ p ∈ (pushes_one 20 c o y).2, 10 < p.1 := by
    intro c o y p hp
    unfold pushes_one at hp
    split at hp
    · simp only [List.mem_singleton] at hp
      rw [hp]; decide
    · exact absurd hp (List.not_mem_nil p)
  exact ⟨hf,
    run_reentrant_drains (pushes_one 20)
      { enabled_state with queue_initialized := true,
                           event_queue := [⟨5, 1, 0⟩, ⟨8, 3, 0⟩] } () 10 3
      rfl rfl (by decide) hf (by decide),
    by decide⟩

/-! ## Configuration and lifecycle -/

/-- C11 (default slice).  `deterministic_init_config` writes 10000 to
`instr_slice` exactly when it was 0: the slice afterwards is 10000 if it was 0
and its old value otherwise, the record changes if and only if the slice was
0, every other field is unchanged, a second call changes nothing more, and
afterwards the slice is not 0. -/
theorem init_config_default_slice (cfg : DeterministicConfig) :
    (deterministic_init_config cfg).instr_slice =
      (if cfg.instr_slice = 0 then 10000 else cfg.instr_slice) ∧
    (deterministic_init_config cfg ≠ cfg ↔ cfg.instr_slice = 0) ∧
    (deterministic_init_config cfg).enabled = cfg.enabled ∧
    (deterministic_init_config cfg).random_seed = cfg.random_seed ∧
    (deterministic_init_config cfg).start_time_ns = cfg.start_time_ns ∧
    (deterministic_init_config cfg).force_icount = cfg.force_icount ∧
    (deterministic_init_config cfg).disable_mttcg = cfg.disable_mttcg ∧
    deterministic_init_config (deterministic_init_config cfg) =
      deterministic_init_config cfg ∧
    (deterministic_init_config cfg).instr_slice ≠ 0 := by
  have h0 : cfg.instr_slice = 0 →
      deterministic_init_config cfg = { cfg with instr_slice := 10000 } := by
    intro h; simp [deterministic_init_config, h]
  have h1 : cfg.instr_slice ≠ 0 → deterministic_init_config cfg = cfg := by
    intro h; simp [deterministic_init_config, h]
  by_cases h : cfg.instr_slice = 0
  · rw [h0 h]
    refine ⟨by simp [h], ?_, rfl, rfl, rfl, rfl, rfl, by simp [deterministic_init_config],
      by simp⟩
    constructor
    · intro _; exact h
    · intro _ heq
      have := congrArg DeterministicConfig.instr_slice heq
      simp [h] at this
  · rw [h1 h]
    refine ⟨by simp [h], ?_, rfl, rfl, rfl, rfl, rfl, h1 h, h⟩
    constructor
    · intro hne; exact absurd rfl hne
    · intro h2; exact absurd h2 h

theorem step_current_icount (s : QueueState) (op : Op) (h : is_run op = false) :
    (step s op).current_icount = s.current_icount := by
  cases op with
  | init =>
    show (deterministic_queue_init s).current_icount = _
    unfold deterministic_queue_init
    split <;> rfl
  | push w cb o =>
    show (deterministic_queue_push s w cb o).current_icount = _
    cases he : deterministic_enabled s
    · rw [push_disabled s w cb o he]
    · rw [push_enabled s w cb o he]
  | run n => simp [is_run] at h
  | cleanup =>
    show (deterministic_queue_cleanup s).current_icount = _
    unfold deterministic_queue_cleanup
    split <;> rfl
  | set_enabled b => rfl
  | init_config => rfl

theorem exec_current_icount (ops : List Op) (s : QueueState)
    (h : ∀ op ∈ ops, is_run op = false) :
    (exec s ops).current_icount = s.current_icount := by
  induction ops generalizing s with
  | nil => rfl
  | cons op ops ih =>
    have h1 := ih (step s op) (fun o ho => h o (List.mem_cons_of_mem _ ho))
    exact h1.trans (step_current_icount s op (h op (List.mem_cons_self _ _)))

/-- C12 (zero before the first run).  In the initial state, and after any
sequence of calls from it that holds no call of `deterministic_queue_run`
(calls of `deterministic_queue_init`, `deterministic_queue_push`,
`deterministic_queue_cleanup`, `deterministic_init_config` and writes of the
enabled flag), `deterministic_queue_get_current_icount` returns 0. -/
theorem icount_zero_before_run (ops : List Op) (h : ∀ op ∈ ops, is_run op = false) :
    deterministic_queue_get_current_icount (exec initial_state ops) = 0 :=
  exec_current_icount ops initial_state h

/-- C12 at the initial state and after init, a bypassed push, an enqueued push,
a cleanup and `deterministic_init_config`. -/
theorem icount_zero_before_run_witness :
    deterministic_queue_get_current_icount (exec initial_state []) = 0 ∧
    deterministic_queue_get_current_icount
      (exec initial_state [.init, .push 5 1 1, .set_enabled true, .push 7 2 2, .cleanup,
        .init_config]) = 0 :=
  ⟨icount_zero_before_run [] (by decide),
    icount_zero_before_run [.init, .push 5 1 1, .set_enabled true, .push 7 2 2, .cleanup,
      .init_config] (by decide)⟩

theorem step_uninitialized_empty (s : QueueState) (op : Op)
    (h : s.queue_initialized = false → s.event_queue = []) :
    (step s op).queue_initialized = false → (step s op).event_queue = [] := by
  cases op with
  | init =>
    show (deterministic_queue_init s).queue_initialized = false →
      (deterministic_queue_init s).event_queue = []
    unfold deterministic_queue_init
    cases hi : s.queue_initialized
    · simp
    · simpa using h
  | push w cb o =>
    show (deterministic_queue_push s w cb o).queue_initialized = false →
      (deterministic_queue_push s w cb o).event_queue = []
    cases he : deterministic_enabled s
    · rw [push_disabled s w cb o he]; exact h
    · rw [push_enabled s w cb o he]; intro hc; simp at hc
  | run n =>
    show (deterministic_queue_run s n).queue_initialized = false →
      (deterministic_queue_run s n).event_queue = []
    by_cases ha : deterministic_enabled s = true ∧ s.queue_initialized = true
    · rw [run_active s n ha.1 ha.2]
      intro hc
      simp only at hc
      rw [ha.2] at hc
      exact absurd hc (by decide)
    · have hoff : deterministic_enabled s = false ∨ s.queue_initialized = false := by
        rcases Bool.eq_false_or_eq_true (deterministic_enabled s) with h1 | h1
        · rcases Bool.eq_false_or_eq_true s.queue_initialized with h2 | h2
          · exact absurd ⟨h1, h2⟩ ha
          · exact Or.inr h2
        · exact Or.inl h1
      rw [run_inactive s n hoff]; exact h
  | cleanup =>
    show (deterministic_queue_cleanup s).queue_initialized = false →
      (deterministic_queue_cleanup s).event_queue = []
    unfold deterministic_queue_cleanup
    cases hi : s.queue_initialized
    · simpa [hi] using h
    · simp [cleanup_foreach_safe_eq]
  | set_enabled b => exact h
  | init_config => exact h

theorem exec_uninitialized_empty (ops : List Op) (s : QueueState)
    (h : s.queue_initialized = false → s.event_queue = []) :
    (exec s ops).queue_initialized = false → (exec s ops).event_queue = [] := by
  induction ops generalizing s with
  | nil => exact h
  | cons op ops ih => exact ih (step s op) (step_uninitialized_empty s op h)

/-- C13 (lifecycle re-initialisation).  `deterministic_queue_cleanup` always
leaves the queue uninitialized.  In every uninitialized state reached from the
initial state by a sequence of calls (the initial state itself, or a state
right after a cleanup), a `deterministic_queue_push` in enabled mode sets the
initialized flag and leaves a queue that holds the pushed event and nothing
else: no event discarded by an earlier cleanup is in it. -/
theorem push_reinitializes (ops : List Op) (w cb o : Nat)
    (hun : (exec initial_state ops).queue_initialized = false)
    (hen : deterministic_enabled (exec initial_state ops) = true) :
    (deterministic_queue_push (exec initial_state ops) w cb o).queue_initialized = true ∧
    (deterministic_queue_push (exec initial_state ops) w cb o).event_queue = [⟨w, cb, o⟩] ∧
    (∀ s : QueueState, (deterministic_queue_cleanup s).queue_initialized = false) := by
  have hq : (exec initial_state ops).event_queue = [] :=
    exec_uninitialized_empty ops initial_state (fun _ => rfl) hun
  rw [push_enabled _ w cb o hen]
  refine ⟨rfl, ?_, ?_⟩
  · simp only [hq]
    rfl
  · intro s
    unfold deterministic_queue_cleanup
    cases hi : s.queue_initialized <;> simp [hi]

/-- C13 at the initial state with deterministic mode switched on, and at the
state right after a cleanup that discarded two events. -/
theorem push_reinitializes_witness :
    ((exec initial_state [.set_enabled true]).queue_initialized = false ∧
      deterministic_enabled (exec initial_state [.set_enabled true]) = true) ∧
    ((deterministic_queue_push (exec initial_state [.set_enabled true]) 9 1 1).queue_initialized
        = true ∧
      (deterministic_queue_push (exec initial_state [.set_enabled true]) 9 1 1).event_queue
        = [⟨9, 1, 1⟩]) ∧
    (deterministic_queue_push
      (exec initial_state [.set_enabled true, .push 3 1 1, .push 4 2 2, .cleanup])
      9 3 3).event_queue = [⟨9, 3, 3⟩] :=
  ⟨⟨rfl, rfl⟩,
    ⟨(push_reinitializes [.set_enabled true] 9 1 1 rfl rfl).1,
      (push_reinitializes [.set_enabled true] 9 1 1 rfl rfl).2.1⟩,
    (push_reinitializes [.set_enabled true, .push 3 1 1, .push 4 2 2, .cleanup] 9 3 3
      rfl rfl).2.1⟩

/-- C14 (`deterministic_queue_init` is idempotent).  Calling it twice yields
the state of calling it once; afterwards the initialized flag is true; the
queue, `current_icount`, the call log and the configuration are unchanged. -/
theorem queue_init_idempotent (s : QueueState) :
    deterministic_queue_init (deterministic_queue_init s) = deterministic_queue_init s ∧
    (deterministic_queue_init s).queue_initialized = true ∧
    (deterministic_queue_init s).event_queue = s.event_queue ∧
    (deterministic_queue_init s).current_icount = s.current_icount ∧
    (deterministic_queue_init s).trace = s.trace ∧
    (deterministic_queue_init s).cfg = s.cfg := by
  unfold deterministic_queue_init
  cases hi : s.queue_initialized <;> simp [hi]

/-- C18 (uninitialized implies empty).  In every state reached from the
initial state by a sequence of calls of `deterministic_queue_init`,
`deterministic_queue_push`, `deterministic_queue_run`,
`deterministic_queue_cleanup`, `deterministic_init_config` and writes of the
enabled flag, a false `queue_initialized` comes with an empty queue. -/
theorem uninitialized_implies_empty (ops : List Op)
    (h : (exec initial_state ops).queue_initialized = false) :
    (exec initial_state ops).event_queue = [] :=
  exec_uninitialized_empty ops initial_state (fun _ => rfl) h

/-- C18 after pushes in both modes, a run, a cleanup and a switch of the
mode. -/
theorem uninitialized_implies_empty_witness :
    (exec initial_state [.push 1 1 1, .set_enabled true, .push 5 2 2, .push 3 3 3, .run 4,
        .cleanup, .set_enabled false, .run 9]).queue_initialized = false ∧
    (exec initial_state [.push 1 1 1, .set_enabled true, .push 5 2 2, .push 3 3 3, .run 4,
        .cleanup, .set_enabled false, .run 9]).event_queue = [] :=
  ⟨rfl, uninitialized_implies_empty _ rfl⟩

/-! ## Insertion position and order of pushes -/

/-- C15 (insertion position).  In enabled mode `deterministic_queue_push` yields
the longest prefix of the queue whose events are all due before `w`, then the
new event, then the rest of the queue, for every queue, sorted or not.  The
event after the new one, if any, is due at `w` or later; the old queue is the
new one with the new event taken out, so every event is kept in its order, and
the length grows by one. -/
theorem push_insertion_position (s : QueueState) (w cb o : Nat)
    (h : deterministic_enabled s = true) :
    (deterministic_queue_push s w cb o).event_queue =
      s.event_queue.takeWhile (fun e => decide (e.when_instrs < w)) ++ [⟨w, cb, o⟩] ++
        s.event_queue.dropWhile (fun e => decide (e.when_instrs < w)) ∧
    (∀ e ∈ s.event_queue.takeWhile (fun e => decide (e.when_instrs < w)), e.when_instrs < w) ∧
    (∀ e ∈ (s.event_queue.dropWhile (fun e => decide (e.when_instrs < w))).head?,
      w ≤ e.when_instrs) ∧
    (deterministic_queue_push s w cb o).event_queue.eraseIdx
        (s.event_queue.takeWhile (fun e => decide (e.when_instrs < w))).length =
      s.event_queue ∧
    (deterministic_queue_push s w cb o).event_queue.length = s.event_queue.length + 1 := by
  have hq : (deterministic_queue_push s w cb o).event_queue =
      s.event_queue.takeWhile (fun e => decide (e.when_instrs < w)) ++ [⟨w, cb, o⟩] ++
        s.event_queue.dropWhile (fun e => decide (e.when_instrs < w)) := by
    rw [push_enabled s w cb o h]
    simp only [queue_insert_eq_take_drop, List.append_assoc, List.singleton_append]
  refine ⟨hq, ?_, ?_, ?_, ?_⟩
  · intro e he
    simpa using List.mem_takeWhile_imp he
  · intro e he
    have := List.head?_dropWhile_not (fun e => decide (e.when_instrs < w)) s.event_queue
    rw [Option.mem_def] at he
    rw [he] at this
    simpa using this
  · rw [hq, List.append_assoc, List.eraseIdx_append_of_length_le (Nat.le_refl _)]
    simp
  · rw [push_enabled s w cb o h]
    exact queue_insert_length _ _

/-- C15 on an unsorted queue: 7 goes behind 5 and in front of 9, the first
event due at 7 or later, although an event due at 2 stands further back. -/
theorem push_insertion_position_witness :
    (deterministic_queue_push
      { enabled_state with queue_initialized := true,
                           event_queue := [⟨5, 1, 0⟩, ⟨9, 2, 0⟩, ⟨2, 3, 0⟩] } 7 4 0).event_queue =
      [⟨5, 1, 0⟩, ⟨7, 4, 0⟩, ⟨9, 2, 0⟩, ⟨2, 3, 0⟩] :=
  (push_insertion_position
    { enabled_state with queue_initialized := true,
                         event_queue := [⟨5, 1, 0⟩, ⟨9, 2, 0⟩, ⟨2, 3, 0⟩] } 7 4 0 rfl).1.trans
    (by decide)

theorem queue_insert_comm (a b : DeterministicEvent) (q : List DeterministicEvent)
    (hne : a.when_instrs ≠ b.when_instrs) :
    queue_insert b (queue_insert a q) = queue_insert a (queue_insert b q) := by
  induction q with
  | nil =>
    show queue_insert b [a] = queue_insert a [b]
    rw [queue_insert_cons, queue_insert_cons]
    by_cases h : b.when_instrs ≤ a.when_instrs
    · have h2 : ¬ a.when_instrs ≤ b.when_instrs := by omega
      rw [if_pos h, if_neg h2]; rfl
    · have h2 : a.when_instrs ≤ b.when_instrs := by omega
      rw [if_neg h, if_pos h2]; rfl
  | cons e q ih =>
    by_cases ha : a.when_instrs ≤ e.when_instrs <;> by_cases hb : b.when_instrs ≤ e.when_instrs
    · by_cases h : b.when_instrs ≤ a.when_instrs
      · have h2 : ¬ a.when_instrs ≤ b.when_instrs := by omega
        simp [queue_insert_cons, ha, hb, h, h2]
      · have h2 : a.when_instrs ≤ b.when_instrs := by omega
        simp [queue_insert_cons, ha, hb, h, h2]
    · have h : ¬ b.when_instrs ≤ a.when_instrs := by omega
      simp [queue_insert_cons, ha, hb, h]
    · have h : ¬ a.when_instrs ≤ b.when_instrs := by omega
      simp [queue_insert_cons, ha, hb, h]
    · simp [queue_insert_cons, ha, hb, ih]

theorem push_push_comm (s : QueueState) (a b : Nat × Nat × Nat)
    (h : deterministic_enabled s = true) (hne : a.1 ≠ b.1) :
    deterministic_queue_push (deterministic_queue_push s a.1 a.2.1 a.2.2) b.1 b.2.1 b.2.2 =
      deterministic_queue_push (deterministic_queue_push s b.1 b.2.1 b.2.2) a.1 a.2.1 a.2.2 := by
  have ha : deterministic_enabled (deterministic_queue_push s a.1 a.2.1 a.2.2) = true := by
    rw [push_enabled s _ _ _ h]; exact h
  have hb : deterministic_enabled (deterministic_queue_push s b.1 b.2.1 b.2.2) = true := by
    rw [push_enabled s _ _ _ h]; exact h
  rw [push_enabled _ _ _ _ ha, push_enabled _ _ _ _ hb, push_enabled s _ _ _ h,
    push_enabled s _ _ _ h]
  simp only
  rw [queue_insert_comm ⟨a.1, a.2.1, a.2.2⟩ ⟨b.1, b.2.1, b.2.2⟩ s.event_queue hne]

theorem push_all_perm_eq (ps ps' : List (Nat × Nat × Nat)) (hp : ps.Perm ps') :
    ∀ s : QueueState, deterministic_enabled s = true → (ps.map Prod.fst).Nodup →
      push_all s ps = push_all s ps' := by
  induction hp with
  | nil => intro s _ _; rfl
  | cons p _ ih =>
    intro s h hn
    have h1 : deterministic_enabled (deterministic_queue_push s p.1 p.2.1 p.2.2) = true := by
      rw [push_enabled s _ _ _ h]; exact h
    rw [List.map_cons, List.nodup_cons] at hn
    exact ih _ h1 hn.2
  | swap a b l =>
    intro s h hn
    have hne : b.1 ≠ a.1 := by
      simp only [List.map_cons, List.nodup_cons, List.mem_cons] at hn
      exact fun he => hn.1 (Or.inl he)
    show push_all (deterministic_queue_push (deterministic_queue_push s b.1 b.2.1 b.2.2)
        a.1 a.2.1 a.2.2) l =
      push_all (deterministic_queue_push (deterministic_queue_push s a.1 a.2.1 a.2.2)
        b.1 b.2.1 b.2.2) l
    rw [push_push_comm s b a h hne]
  | trans hp1 _ ih1 ih2 =>
    intro s h hn
    exact (ih1 s h hn).trans (ih2 s h ((hp1.map Prod.fst).nodup_iff.mp hn))

/-- C16 (push order does not matter for distinct due-counts).  In enabled
mode, on every queue, pushing `a` then `b` with different due-counts yields
the state that pushing `b` then `a` yields; hence two push orders of requests
with pairwise distinct due-counts yield the same state, and a
`deterministic_queue_run` after them calls the same callbacks in the same
order. -/
theorem push_order_irrelevant (s : QueueState) (h : deterministic_enabled s = true) :
    (∀ a b : Nat × Nat × Nat, a.1 ≠ b.1 →
      deterministic_queue_push (deterministic_queue_push s a.1 a.2.1 a.2.2) b.1 b.2.1 b.2.2 =
        deterministic_queue_push (deterministic_queue_push s b.1 b.2.1 b.2.2)
          a.1 a.2.1 a.2.2) ∧
    (∀ ps ps' : List (Nat × Nat × Nat), ps.Perm ps' → (ps.map Prod.fst).Nodup →
      (push_all s ps).event_queue = (push_all s ps').event_queue ∧
      push_all s ps = push_all s ps' ∧
      ∀ n : Nat, (deterministic_queue_run (push_all s ps) n).trace =
        (deterministic_queue_run (push_all s ps') n).trace) := by
  refine ⟨fun a b hne => push_push_comm s a b h hne, fun ps ps' hp hn => ?_⟩
  have heq := push_all_perm_eq ps ps' hp s h hn
  exact ⟨by rw [heq], heq, fun n => by rw [heq]⟩

/-- C16 at the due-counts 30, 10, 20 pushed onto the empty queue in two
orders: the queue is 10, 20, 30 both times. -/
theorem push_order_irrelevant_witness :
    deterministic_enabled enabled_state = true ∧
    (push_all enabled_state [(30, 1, 0), (10, 2, 0), (20, 3, 0)]).event_queue =
      (push_all enabled_state [(20, 3, 0), (30, 1, 0), (10, 2, 0)]).event_queue ∧
    (push_all enabled_state [(30, 1, 0), (10, 2, 0), (20, 3, 0)]).event_queue =
      [⟨10, 2, 0⟩, ⟨20, 3, 0⟩, ⟨30, 1, 0⟩] :=
  ⟨rfl,
    ((push_order_irrelevant enabled_state rfl).2
      [(30, 1, 0), (10, 2, 0), (20, 3, 0)] [(20, 3, 0), (30, 1, 0), (10, 2, 0)]
      (by decide) (by decide)).1,
    by decide⟩

/-! ## Successive runs -/

theorem dropWhile_takeWhile_mono (p p' : DeterministicEvent → Bool)
    (hpp : ∀ e, p e = true → p' e = true) (q : List DeterministicEvent) :
    (q.dropWhile p).dropWhile p' = q.dropWhile p' ∧
    q.takeWhile p ++ (q.dropWhile p).takeWhile p' = q.takeWhile p' := by
  induction q with
  | nil => exact ⟨rfl, rfl⟩
  | cons e q ih =>
    cases h : p e
    · simp [List.dropWhile, List.takeWhile, h]
    · have h' := hpp e h
      simp [List.dropWhile, List.takeWhile, h, h', ih.1, ih.2]

/-- C17 (run composes over non-decreasing counts).  For `m ≤ n`,
`deterministic_queue_run` to `m` followed by `deterministic_queue_run` to `n`
(callbacks leave the queue alone) ends in the state a single run to `n` ends
in: the same call log, so the same callbacks in the same order, the same
queue and the same `current_icount`.  This holds in every state, whatever the
mode and whether or not the queue is sorted. -/
theorem run_compose (s : QueueState) (m n : Nat) (hmn : m ≤ n) :
    deterministic_queue_run (deterministic_queue_run s m) n = deterministic_queue_run s n ∧
    (deterministic_queue_run (deterministic_queue_run s m) n).trace =
      (deterministic_queue_run s n).trace ∧
    (deterministic_queue_run (deterministic_queue_run s m) n).event_queue =
      (deterministic_queue_run s n).event_queue ∧
    (deterministic_queue_run (deterministic_queue_run s m) n).current_icount =
      (deterministic_queue_run s n).current_icount := by
  have key : deterministic_queue_run (deterministic_queue_run s m) n =
      deterministic_queue_run s n := by
    by_cases ha : deterministic_enabled s = true ∧ s.queue_initialized = true
    · have hmono := dropWhile_takeWhile_mono
        (fun e => decide (e.when_instrs ≤ m)) (fun e => decide (e.when_instrs ≤ n))
        (fun e he => by
          simp only [decide_eq_true_eq] at he ⊢
          exact Nat.le_trans he hmn) s.event_queue
      rw [run_active s m ha.1 ha.2]
      rw [run_active _ n (by exact ha.1) (by exact ha.2)]
      rw [run_active s n ha.1 ha.2]
      simp only [hmono.1, List.append_assoc, hmono.2]
    · have hoff : deterministic_enabled s = false ∨ s.queue_initialized = false := by
        rcases Bool.eq_false_or_eq_true (deterministic_enabled s) with h1 | h1
        · rcases Bool.eq_false_or_eq_true s.queue_initialized with h2 | h2
          · exact absurd ⟨h1, h2⟩ ha
          · exact Or.inr h2
        · exact Or.inl h1
      rw [run_inactive s m hoff]
  exact ⟨key, by rw [key], by rw [key], by rw [key]⟩

/-- C17 at the sorted queue 5, 10, 15, 20: runs to 10 and then to 15 and a
single run to 15 both call 5, 10, 15 and keep 20. -/
theorem run_compose_witness :
    (10 ≤ 15) ∧
    (deterministic_queue_run (deterministic_queue_run
        (push_all enabled_state [(5, 1, 0), (10, 2, 0), (15, 3, 0), (20, 4, 0)]) 10) 15).trace =
      [⟨5, 1, 0⟩, ⟨10, 2, 0⟩, ⟨15, 3, 0⟩] ∧
    (deterministic_queue_run
        (push_all enabled_state [(5, 1, 0), (10, 2, 0), (15, 3, 0), (20, 4, 0)]) 15).trace =
      [⟨5, 1, 0⟩, ⟨10, 2, 0⟩, ⟨15, 3, 0⟩] ∧
    (deterministic_queue_run (deterministic_queue_run
        (push_all enabled_state [(5, 1, 0), (10, 2, 0), (15, 3, 0), (20, 4, 0)]) 10) 15).event_queue
      = [⟨20, 4, 0⟩] :=
  ⟨by decide,
    (run_compose (push_all enabled_state [(5, 1, 0), (10, 2, 0), (15, 3, 0), (20, 4, 0)])
      10 15 (by decide)).2.1.trans (by decide),
    by decide,
    (run_compose (push_all enabled_state [(5, 1, 0), (10, 2, 0), (15, 3, 0), (20, 4, 0)])
      10 15 (by decide)).2.2.1.trans (by decide)⟩

end DeterministicQueue
